import Mathlib

/-!
Verification of the Merrill Portfolio Beta userscripts.

The repository contains two userscripts (version 0.1 and version 0.2) that
estimate per-holding beta against a market proxy from daily close prices and
aggregate a portfolio beta.  This file gives a shallow embedding of the
statistical core of both scripts and proves or refutes the specification
claims about them.

Modelling conventions:
- JavaScript numbers are modelled as rationals; the value NaN (and the
  undefined-beta sentinel) is modelled as `none` in an `Option`.
- JavaScript strings handled character by character (ticker normalization)
  are modelled as `List Char`; case mapping is the ASCII case mapping, and
  whitespace is `Char.isWhitespace`.
- Fallible operations (network fetches, thrown errors) are modelled with
  `Except`; `localStorage` is a function from keys to optional raw values,
  where a present raw value either parses to a cache record or does not
  (`Option (Option CacheVal)`).
-/

namespace MerrillBeta

/-! ## ASCII character primitives (model of the JS string methods used) -/

/-- Model of the effect of `String.prototype.toLowerCase` on one ASCII
character: uppercase letters are shifted down into lowercase, everything
else is unchanged. -/
def lcChar (c : Char) : Char :=
  if 65 ≤ c.toNat ∧ c.toNat ≤ 90 then Char.ofNat (c.toNat + 32) else c

/-- Model of the effect of `String.prototype.toUpperCase` on one ASCII
character. -/
def ucChar (c : Char) : Char :=
  if 97 ≤ c.toNat ∧ c.toNat ≤ 122 then Char.ofNat (c.toNat - 32) else c

/-- Character transform used by the Yahoo branch of `normalizeTicker`:
`t.replace(/\./g, "-")` applied pointwise. -/
def dotDashChar (c : Char) : Char :=
  if c = '.' then '-' else c

/-- ASCII letter test, the character class `[a-z]` under the `i` regex flag. -/
def isAlphaChar (c : Char) : Bool :=
  (65 ≤ c.toNat ∧ c.toNat ≤ 90) ∨ (97 ≤ c.toNat ∧ c.toNat ≤ 122)

/-- Whitespace test modelling the JS `\s` class and the `trim` whitespace
set. -/
def isWsChar (c : Char) : Bool := c.isWhitespace

/-! ## JS string operations on character lists -/

/-- Model of `String.prototype.trim`. -/
def jsTrim (s : List Char) : List Char :=
  ((s.dropWhile isWsChar).reverse.dropWhile isWsChar).reverse

/-- Model of `toLowerCase`. -/
def jsLower (s : List Char) : List Char := s.map lcChar

/-- Model of `toUpperCase`. -/
def jsUpper (s : List Char) : List Char := s.map ucChar

/-- Model of `t.replace(/\s+/g, "")`: remove every whitespace character. -/
def stripWs (s : List Char) : List Char := s.filter (fun c => ! isWsChar c)

/-- Model of the regex test `/\.[a-z]{2,}$/i.test(t)`: the string ends in a
dot followed by at least two ASCII letters.  Equivalently, the maximal run
of trailing letters has length at least 2 and is immediately preceded by a
dot. -/
def hasStooqSuffix (s : List Char) : Bool :=
  let run := s.reverse.takeWhile isAlphaChar
  decide (2 ≤ run.length) && ((s.reverse.drop run.length).head? == some '.')

/-- The character list of the literal suffix `".us"`. -/
def dotUs : List Char := ['.', 'u', 's']

/-! ## The two ticker-normalization functions (source: v0.1
`normalizeToStooqSymbol`, lines 146-160, and v0.2 `normalizeTicker`,
lines 651-661). -/

/-- Embedding of v0.1 `normalizeToStooqSymbol`. -/
def normalizeToStooqSymbol (rawTicker : List Char) : List Char :=
  let t := jsTrim rawTicker
  if t = [] then []
  else if hasStooqSuffix t then jsLower t
  else
    let t2 := stripWs t
    if t2.contains '.' then jsLower t2 else jsLower t2 ++ dotUs

/-- Embedding of v0.2 `normalizeTicker`. -/
def normalizeTicker (raw : List Char) (source : String) : List Char :=
  let t := jsUpper (jsTrim raw)
  if t = [] then []
  else if source = "stooq" then
    if hasStooqSuffix t then jsLower t
    else
      let t2 := stripWs t
      if t2.contains '.' then jsLower t2 else jsLower t2 ++ dotUs
  else t.map dotDashChar

/-! ## Character-level lemmas -/

theorem toNat_lc_of_upper {c : Char} (h1 : 65 ≤ c.toNat) (h2 : c.toNat ≤ 90) :
    (Char.ofNat (c.toNat + 32)).toNat = c.toNat + 32 := by
  generalize c.toNat = n at h1 h2 ⊢
  interval_cases n <;> decide

theorem toNat_uc_of_lower {c : Char} (h1 : 97 ≤ c.toNat) (h2 : c.toNat ≤ 122) :
    (Char.ofNat (c.toNat - 32)).toNat = c.toNat - 32 := by
  generalize c.toNat = n at h1 h2 ⊢
  interval_cases n <;> decide

theorem lcChar_lcChar (c : Char) : lcChar (lcChar c) = lcChar c := by
  unfold lcChar
  split
  · next h =>
    rw [if_neg]
    rw [toNat_lc_of_upper h.1 h.2]
    omega
  · rfl

theorem lcChar_ucChar (c : Char) : lcChar (ucChar c) = lcChar c := by
  unfold ucChar
  split
  · next h =>
    have htn : (Char.ofNat (c.toNat - 32)).toNat = c.toNat - 32 :=
      toNat_uc_of_lower h.1 h.2
    unfold lcChar
    rw [if_pos (by rw [htn]; omega), if_neg (by omega), htn]
    have h32 : c.toNat - 32 + 32 = c.toNat := by omega
    rw [h32, Char.ofNat_toNat]
  · rfl

theorem ucChar_ucChar (c : Char) : ucChar (ucChar c) = ucChar c := by
  unfold ucChar
  split
  · next h =>
    rw [if_neg]
    rw [toNat_uc_of_lower h.1 h.2]
    omega
  · rfl

theorem isAlphaChar_lcChar (c : Char) : isAlphaChar (lcChar c) = isAlphaChar c := by
  unfold lcChar isAlphaChar
  split
  · next h =>
    rw [toNat_lc_of_upper h.1 h.2]
    simp only [decide_eq_decide]
    omega
  · rfl

theorem isAlphaChar_ucChar (c : Char) : isAlphaChar (ucChar c) = isAlphaChar c := by
  unfold ucChar isAlphaChar
  split
  · next h =>
    rw [toNat_uc_of_lower h.1 h.2]
    simp only [decide_eq_decide]
    omega
  · rfl

theorem toNat_dot : '.'.toNat = 46 := by decide

theorem lcChar_eq_dot_iff (c : Char) : lcChar c = '.' ↔ c = '.' := by
  unfold lcChar
  split
  · next h =>
    constructor
    · intro he
      have := congrArg Char.toNat he
      rw [toNat_lc_of_upper h.1 h.2, toNat_dot] at this
      omega
    · intro he; subst he; simp at h
  · exact Iff.rfl

theorem ucChar_eq_dot_iff (c : Char) : ucChar c = '.' ↔ c = '.' := by
  unfold ucChar
  split
  · next h =>
    constructor
    · intro he
      have := congrArg Char.toNat he
      rw [toNat_uc_of_lower h.1 h.2, toNat_dot] at this
      omega
    · intro he; subst he; simp at h
  · exact Iff.rfl

theorem isWs_false_of_toNat_ge {c : Char} (h : 33 ≤ c.toNat) : isWsChar c = false := by
  have hs : c ≠ ' ' := by intro e; subst e; exact absurd h (by decide)
  have ht : c ≠ '\t' := by intro e; subst e; exact absurd h (by decide)
  have hr : c ≠ '\r' := by intro e; subst e; exact absurd h (by decide)
  have hn : c ≠ '\n' := by intro e; subst e; exact absurd h (by decide)
  simp only [isWsChar, Char.isWhitespace]
  simp [hs, ht, hr, hn]

theorem isWsChar_lcChar (c : Char) : isWsChar (lcChar c) = isWsChar c := by
  unfold lcChar
  split
  · next h =>
    rw [isWs_false_of_toNat_ge (by rw [toNat_lc_of_upper h.1 h.2]; omega),
      isWs_false_of_toNat_ge (by omega)]
  · rfl

theorem isWsChar_ucChar (c : Char) : isWsChar (ucChar c) = isWsChar c := by
  unfold ucChar
  split
  · next h =>
    rw [isWs_false_of_toNat_ge (by rw [toNat_uc_of_lower h.1 h.2]; omega),
      isWs_false_of_toNat_ge (by omega)]
  · rfl

theorem isWsChar_dotDashChar (c : Char) : isWsChar (dotDashChar c) = isWsChar c := by
  unfold dotDashChar
  split
  · next h => subst h; decide
  · rfl

theorem ucChar_dotDash_ucChar (c : Char) :
    ucChar (dotDashChar (ucChar c)) = dotDashChar (ucChar c) := by
  by_cases h : ucChar c = '.'
  · rw [h]; decide
  · rw [dotDashChar, if_neg h, ucChar_ucChar]

theorem dotDashChar_ne_dot (c : Char) : dotDashChar c ≠ '.' := by
  unfold dotDashChar
  split
  · decide
  · next h => exact h

theorem dotDashChar_dotDashChar (c : Char) :
    dotDashChar (dotDashChar c) = dotDashChar c := by
  unfold dotDashChar
  split
  · decide
  · rfl

/-! ## List-level lemmas about the JS string operations -/

theorem head?_dropWhile_not {α : Type} (p : α → Bool) (l : List α) {c : α}
    (h : (l.dropWhile p).head? = some c) : p c = false := by
  induction l with
  | nil => simp at h
  | cons a l ih =>
    rw [List.dropWhile_cons] at h
    split at h
    · exact ih h
    · next hpa =>
      simp only [List.head?_cons, Option.some.injEq] at h
      subst h
      exact (Bool.not_eq_true _).mp hpa

theorem dropWhile_eq_self_of_head {α : Type} (p : α → Bool) (l : List α)
    (h : ∀ c, l.head? = some c → p c = false) : l.dropWhile p = l := by
  cases l with
  | nil => rfl
  | cons a l => rw [List.dropWhile_cons, if_neg]; simp [h a rfl]

theorem dropWhile_idem {α : Type} (p : α → Bool) (l : List α) :
    (l.dropWhile p).dropWhile p = l.dropWhile p :=
  dropWhile_eq_self_of_head p _ (fun _ h => head?_dropWhile_not p l h)

theorem jsTrim_idem (s : List Char) : jsTrim (jsTrim s) = jsTrim s := by
  unfold jsTrim
  set w := s.dropWhile isWsChar with hw
  set v := w.reverse.dropWhile isWsChar with hv
  have hstep : v.reverse.dropWhile isWsChar = v.reverse := by
    apply dropWhile_eq_self_of_head
    intro c hc
    rw [List.head?_reverse] at hc
    have hvne : v ≠ [] := by
      intro he; rw [he] at hc; simp at hc
    obtain ⟨pre, hpre⟩ := List.dropWhile_suffix (l := w.reverse) isWsChar
    rw [← hv] at hpre
    have : w.reverse.getLast? = some c := by
      rw [← hpre, List.getLast?_append_of_ne_nil _ hvne]; exact hc
    rw [List.getLast?_reverse] at this
    exact head?_dropWhile_not isWsChar s (hw ▸ this)
  rw [hstep, List.reverse_reverse, dropWhile_idem]

theorem jsTrim_map (f : Char → Char) (hf : ∀ c, isWsChar (f c) = isWsChar c)
    (s : List Char) : jsTrim (s.map f) = (jsTrim s).map f := by
  have hcomp : (isWsChar ∘ f) = isWsChar := funext hf
  unfold jsTrim
  rw [List.dropWhile_map, hcomp, ← List.map_reverse, List.dropWhile_map, hcomp,
    ← List.map_reverse]

theorem jsTrim_of_no_ws {s : List Char} (h : ∀ c ∈ s, isWsChar c = false) :
    jsTrim s = s := by
  unfold jsTrim
  rw [dropWhile_eq_self_of_head _ _ (fun c hc => h c (List.mem_of_mem_head? hc)),
    dropWhile_eq_self_of_head _ _
      (fun c hc => h c (List.mem_reverse.mp (List.mem_of_mem_head? hc))),
    List.reverse_reverse]

theorem stripWs_of_no_ws {s : List Char} (h : ∀ c ∈ s, isWsChar c = false) :
    stripWs s = s := by
  unfold stripWs
  apply List.filter_eq_self.mpr
  intro c hc
  simp [h c hc]

theorem mem_stripWs_not_ws {s : List Char} {c : Char} (h : c ∈ stripWs s) :
    isWsChar c = false := by
  unfold stripWs at h
  have := List.of_mem_filter h
  simpa using this

theorem stripWs_map (f : Char → Char) (hf : ∀ c, isWsChar (f c) = isWsChar c)
    (s : List Char) : stripWs (s.map f) = (stripWs s).map f := by
  have hcomp : ((fun c => ! isWsChar c) ∘ f) = (fun c => ! isWsChar c) :=
    funext (fun c => by simp [hf c])
  unfold stripWs
  rw [List.filter_map, hcomp]

theorem contains_map_dot (f : Char → Char) (hd : ∀ c, f c = '.' ↔ c = '.')
    (s : List Char) : (s.map f).contains '.' = s.contains '.' := by
  apply Bool.coe_iff_coe.mp
  rw [List.elem_iff, List.elem_iff, List.mem_map]
  constructor
  · rintro ⟨c, hc, he⟩
    exact ((hd c).mp he) ▸ hc
  · intro hc
    exact ⟨'.', hc, (hd '.').mpr rfl⟩

theorem hasStooqSuffix_map (f : Char → Char)
    (ha : ∀ c, isAlphaChar (f c) = isAlphaChar c)
    (hd : ∀ c, f c = '.' ↔ c = '.') (s : List Char) :
    hasStooqSuffix (s.map f) = hasStooqSuffix s := by
  have hcomp : (isAlphaChar ∘ f) = isAlphaChar := funext ha
  have hrev : (s.map f).reverse = s.reverse.map f := by
    rw [List.map_reverse]
  simp only [hasStooqSuffix]
  rw [hrev, List.takeWhile_map, hcomp, List.length_map, ← List.map_drop,
    List.head?_map]
  congr 1
  rcases hh : (s.reverse.drop (s.reverse.takeWhile isAlphaChar).length).head? with
    _ | c
  · rfl
  · simp only [Option.map_some']
    by_cases hcc : c = '.'
    · rw [hcc, show f '.' = '.' from (hd '.').mpr rfl]
    · have hfc : f c ≠ '.' := fun e => hcc ((hd c).mp e)
      apply Bool.coe_iff_coe.mp
      simp [hcc, hfc]

theorem jsLower_jsLower (s : List Char) : jsLower (jsLower s) = jsLower s := by
  unfold jsLower
  rw [List.map_map]
  exact List.map_congr_left (fun c _ => lcChar_lcChar c)

theorem jsLower_jsUpper (s : List Char) : jsLower (jsUpper s) = jsLower s := by
  unfold jsLower jsUpper
  rw [List.map_map]
  exact List.map_congr_left (fun c _ => lcChar_ucChar c)

theorem jsUpper_jsUpper (s : List Char) : jsUpper (jsUpper s) = jsUpper s := by
  unfold jsUpper
  rw [List.map_map]
  exact List.map_congr_left (fun c _ => ucChar_ucChar c)

theorem hasStooqSuffix_append_dotUs (x : List Char) :
    hasStooqSuffix (x ++ dotUs) = true := by
  unfold hasStooqSuffix dotUs
  rw [List.reverse_append]
  simp only [List.reverse_cons, List.reverse_nil, List.nil_append, List.cons_append,
    List.append_assoc]
  rw [List.takeWhile_cons_of_pos (by decide), List.takeWhile_cons_of_pos (by decide),
    List.takeWhile_cons_of_neg (by decide)]
  simp

theorem jsLower_dotUs : jsLower dotUs = dotUs := by decide

theorem no_ws_dotUs : ∀ c ∈ dotUs, isWsChar c = false := by decide

theorem stripWs_jsTrim_ne_nil {s : List Char} (h : jsTrim s ≠ []) :
    stripWs (jsTrim s) ≠ [] := by
  unfold jsTrim at *
  set w := s.dropWhile isWsChar with hw
  set v := w.reverse.dropWhile isWsChar with hv
  have hvne : v ≠ [] := by
    intro he
    rw [he] at h
    simp at h
  rcases hhd : v.head? with _ | c
  · rw [List.head?_eq_none_iff] at hhd
    exact absurd hhd hvne
  · have hcw : isWsChar c = false := head?_dropWhile_not isWsChar w.reverse (hv ▸ hhd)
    have hcv : c ∈ v.reverse := List.mem_reverse.mpr (List.mem_of_mem_head? hhd)
    intro he
    have : c ∈ stripWs v.reverse := by
      unfold stripWs
      exact List.mem_filter.mpr ⟨hcv, by simp [hcw]⟩
    rw [he] at this
    simp at this

theorem jsLower_ne_nil {s : List Char} (h : s ≠ []) : jsLower s ≠ [] := by
  simpa [jsLower] using h

theorem jsUpper_ne_nil {s : List Char} (h : s ≠ []) : jsUpper s ≠ [] := by
  simpa [jsUpper] using h

theorem no_ws_jsLower_stripWs (t : List Char) :
    ∀ c ∈ jsLower (stripWs t), isWsChar c = false := by
  intro c hc
  obtain ⟨d, hd, he⟩ := List.mem_map.mp hc
  rw [← he, isWsChar_lcChar]
  exact mem_stripWs_not_ws hd

/-- Any list satisfying the listed fixed-point facts is left unchanged by
v0.1 `normalizeToStooqSymbol`.  All outputs of the function satisfy them. -/
theorem normalizeToStooqSymbol_fix {y : List Char} (hne : y ≠ [])
    (htr : jsTrim y = y) (hlo : jsLower y = y)
    (hbr : hasStooqSuffix y = true ∨ (stripWs y = y ∧ y.contains '.' = true)) :
    normalizeToStooqSymbol y = y := by
  simp only [normalizeToStooqSymbol, htr, if_neg hne]
  rcases hbr with h | ⟨hst, hco⟩
  · simp only [h, if_true, hlo]
  · by_cases hsfx : hasStooqSuffix y = true
    · simp only [hsfx, if_true, hlo]
    · rw [Bool.not_eq_true] at hsfx
      simp only [hsfx, Bool.false_eq_true, if_false, hst, hco, if_true, hlo]

/-- Analogue of `normalizeToStooqSymbol_fix` for the Stooq branch of v0.2
`normalizeTicker`. -/
theorem normalizeTicker_stooq_fix {y : List Char} (hne : y ≠ [])
    (htr : jsTrim y = y) (hlo : jsLower y = y)
    (hbr : hasStooqSuffix y = true ∨ (stripWs y = y ∧ y.contains '.' = true)) :
    normalizeTicker y "stooq" = y := by
  have hsfxu : hasStooqSuffix (jsUpper y) = hasStooqSuffix y :=
    hasStooqSuffix_map ucChar isAlphaChar_ucChar ucChar_eq_dot_iff y
  have hlyu : jsLower (jsUpper y) = y := by rw [jsLower_jsUpper, hlo]
  simp only [normalizeTicker, htr, if_neg (jsUpper_ne_nil hne), if_pos rfl]
  rcases hbr with h | ⟨hst, hco⟩
  · simp only [hsfxu, h, if_true, hlyu]
  · have hstu : stripWs (jsUpper y) = jsUpper y := by
      unfold jsUpper
      rw [stripWs_map ucChar isWsChar_ucChar, hst]
    have hcou : (jsUpper y).contains '.' = y.contains '.' :=
      contains_map_dot ucChar ucChar_eq_dot_iff y
    by_cases hsfx : hasStooqSuffix y = true
    · simp only [hsfxu, hsfx, if_true, hlyu]
    · rw [Bool.not_eq_true] at hsfx
      simp only [hsfxu, hsfx, Bool.false_eq_true, if_false, hstu, hcou, hco,
        if_true, hlyu]

/-- Analogue for the Yahoo branch of v0.2 `normalizeTicker`. -/
theorem normalizeTicker_yahoo_fix {src : String} (hsrc : ¬ (src = "stooq"))
    {y : List Char} (hne : y ≠ []) (htr : jsTrim y = y) (hup : jsUpper y = y)
    (hdot : y.map dotDashChar = y) : normalizeTicker y src = y := by
  simp only [normalizeTicker, htr, hup, if_neg hne, if_neg hsrc, hdot]

theorem jsLower_append (a b : List Char) :
    jsLower (a ++ b) = jsLower a ++ jsLower b := List.map_append lcChar a b

theorem hasStooqSuffix_jsLower (t : List Char) :
    hasStooqSuffix (jsLower t) = hasStooqSuffix t :=
  hasStooqSuffix_map lcChar isAlphaChar_lcChar lcChar_eq_dot_iff t

/-- The suffix-branch output `t.toLowerCase()` satisfies the fixed-point
facts. -/
theorem fix_facts_suffix {t : List Char} (htne : t ≠ []) (htt : jsTrim t = t)
    (hsfx : hasStooqSuffix t = true) :
    jsLower t ≠ [] ∧ jsTrim (jsLower t) = jsLower t ∧
      jsLower (jsLower t) = jsLower t ∧ hasStooqSuffix (jsLower t) = true := by
  refine ⟨jsLower_ne_nil htne, ?_, jsLower_jsLower t, ?_⟩
  · unfold jsLower
    rw [jsTrim_map lcChar isWsChar_lcChar, htt]
  · rw [hasStooqSuffix_jsLower]; exact hsfx

/-- The dotted-branch output `t.toLowerCase()` after whitespace removal
satisfies the fixed-point facts. -/
theorem fix_facts_dotted {t : List Char} (hstne : stripWs t ≠ [])
    (hco : (stripWs t).contains '.' = true) :
    jsLower (stripWs t) ≠ [] ∧
      jsTrim (jsLower (stripWs t)) = jsLower (stripWs t) ∧
      jsLower (jsLower (stripWs t)) = jsLower (stripWs t) ∧
      stripWs (jsLower (stripWs t)) = jsLower (stripWs t) ∧
      (jsLower (stripWs t)).contains '.' = true := by
  have hnw := no_ws_jsLower_stripWs t
  refine ⟨jsLower_ne_nil hstne, jsTrim_of_no_ws hnw, jsLower_jsLower _,
    stripWs_of_no_ws hnw, ?_⟩
  rw [show jsLower (stripWs t) = (stripWs t).map lcChar from rfl,
    contains_map_dot lcChar lcChar_eq_dot_iff]
  exact hco

/-- The default-branch output with the appended `".us"` suffix satisfies the
fixed-point facts. -/
theorem fix_facts_dotus (t : List Char) :
    jsLower (stripWs t) ++ dotUs ≠ [] ∧
      jsTrim (jsLower (stripWs t) ++ dotUs) = jsLower (stripWs t) ++ dotUs ∧
      jsLower (jsLower (stripWs t) ++ dotUs) = jsLower (stripWs t) ++ dotUs ∧
      hasStooqSuffix (jsLower (stripWs t) ++ dotUs) = true := by
  refine ⟨by simp [dotUs], ?_, ?_, hasStooqSuffix_append_dotUs _⟩
  · apply jsTrim_of_no_ws
    intro c hc
    rcases List.mem_append.mp hc with h1 | h2
    · exact no_ws_jsLower_stripWs t c h1
    · exact no_ws_dotUs c h2
  · rw [jsLower_append, jsLower_jsLower, jsLower_dotUs]

/-- Idempotence of v0.1 `normalizeToStooqSymbol`. -/
theorem normalizeToStooqSymbol_idem (raw : List Char) :
    normalizeToStooqSymbol (normalizeToStooqSymbol raw)
      = normalizeToStooqSymbol raw := by
  by_cases ht : jsTrim raw = []
  · have h1 : normalizeToStooqSymbol raw = [] := by
      simp [normalizeToStooqSymbol, ht]
    rw [h1]
    rfl
  · have htt : jsTrim (jsTrim raw) = jsTrim raw := jsTrim_idem raw
    by_cases hsfx : hasStooqSuffix (jsTrim raw) = true
    · have hy : normalizeToStooqSymbol raw = jsLower (jsTrim raw) := by
        simp only [normalizeToStooqSymbol, if_neg ht, hsfx, if_true]
      obtain ⟨f1, f2, f3, f4⟩ := fix_facts_suffix ht htt hsfx
      rw [hy]
      exact normalizeToStooqSymbol_fix f1 f2 f3 (Or.inl f4)
    · by_cases hco : (stripWs (jsTrim raw)).contains '.' = true
      · have hy : normalizeToStooqSymbol raw = jsLower (stripWs (jsTrim raw)) := by
          simp only [normalizeToStooqSymbol, if_neg ht, if_neg hsfx, hco, if_true]
        obtain ⟨f1, f2, f3, f4, f5⟩ := fix_facts_dotted (stripWs_jsTrim_ne_nil ht) hco
        rw [hy]
        exact normalizeToStooqSymbol_fix f1 f2 f3 (Or.inr ⟨f4, f5⟩)
      · have hy : normalizeToStooqSymbol raw
            = jsLower (stripWs (jsTrim raw)) ++ dotUs := by
          simp only [normalizeToStooqSymbol, if_neg ht, if_neg hsfx, if_neg hco]
        obtain ⟨f1, f2, f3, f4⟩ := fix_facts_dotus (jsTrim raw)
        rw [hy]
        exact normalizeToStooqSymbol_fix f1 f2 f3 (Or.inl f4)

/-- Idempotence of v0.2 `normalizeTicker`, for every source. -/
theorem normalizeTicker_idem (raw : List Char) (source : String) :
    normalizeTicker (normalizeTicker raw source) source
      = normalizeTicker raw source := by
  by_cases hsrc : source = "stooq"
  · subst hsrc
    by_cases ht : jsTrim raw = []
    · have h1 : normalizeTicker raw "stooq" = [] := by
        simp [normalizeTicker, ht, jsUpper]
      rw [h1]
      rfl
    · have htne : jsUpper (jsTrim raw) ≠ [] := jsUpper_ne_nil ht
      have htt : jsTrim (jsUpper (jsTrim raw)) = jsUpper (jsTrim raw) := by
        unfold jsUpper
        rw [jsTrim_map ucChar isWsChar_ucChar, jsTrim_idem]
      have hstne : stripWs (jsUpper (jsTrim raw)) ≠ [] := by
        unfold jsUpper
        rw [stripWs_map ucChar isWsChar_ucChar]
        exact jsUpper_ne_nil (stripWs_jsTrim_ne_nil ht)
      by_cases hsfx : hasStooqSuffix (jsUpper (jsTrim raw)) = true
      · have hy : normalizeTicker raw "stooq" = jsLower (jsUpper (jsTrim raw)) := by
          simp only [normalizeTicker, if_neg htne, if_pos rfl, hsfx, if_true]
        obtain ⟨f1, f2, f3, f4⟩ := fix_facts_suffix htne htt hsfx
        rw [hy]
        exact normalizeTicker_stooq_fix f1 f2 f3 (Or.inl f4)
      · by_cases hco : (stripWs (jsUpper (jsTrim raw))).contains '.' = true
        · have hy : normalizeTicker raw "stooq"
              = jsLower (stripWs (jsUpper (jsTrim raw))) := by
            simp only [normalizeTicker, if_neg htne, if_pos rfl, if_neg hsfx,
              hco, if_true]
          obtain ⟨f1, f2, f3, f4, f5⟩ := fix_facts_dotted hstne hco
          rw [hy]
          exact normalizeTicker_stooq_fix f1 f2 f3 (Or.inr ⟨f4, f5⟩)
        · have hy : normalizeTicker raw "stooq"
              = jsLower (stripWs (jsUpper (jsTrim raw))) ++ dotUs := by
            simp only [normalizeTicker, if_neg htne, if_pos rfl, if_neg hsfx,
              if_neg hco, if_true]
          obtain ⟨f1, f2, f3, f4⟩ := fix_facts_dotus (jsUpper (jsTrim raw))
          rw [hy]
          exact normalizeTicker_stooq_fix f1 f2 f3 (Or.inl f4)
  · by_cases ht : jsTrim raw = []
    · have h1 : normalizeTicker raw source = [] := by
        simp [normalizeTicker, ht, jsUpper, if_neg hsrc]
      rw [h1]
      simp [normalizeTicker, jsTrim, jsUpper]
    · have hy : normalizeTicker raw source
          = (jsUpper (jsTrim raw)).map dotDashChar := by
        simp only [normalizeTicker, if_neg (jsUpper_ne_nil ht), if_neg hsrc]
      rw [hy]
      apply normalizeTicker_yahoo_fix hsrc
      · simp only [ne_eq, List.map_eq_nil_iff]
        exact jsUpper_ne_nil ht
      · rw [jsTrim_map dotDashChar isWsChar_dotDashChar]
        unfold jsUpper
        rw [jsTrim_map ucChar isWsChar_ucChar, jsTrim_idem]
      · unfold jsUpper
        rw [List.map_map, List.map_map, List.map_map]
        apply List.map_congr_left
        intro c _
        exact ucChar_dotDash_ucChar c
      · rw [List.map_map]
        apply List.map_congr_left
        intro c _
        exact dotDashChar_dotDashChar c

/-! ## Statistics core (source: v0.1 `variance`, `covariance`,
`betaFromReturns`, lines 122-144, and v0.2 `calculateBeta`, lines 638-649).
JS numbers are rationals; NaN is `none`. -/

/-- Embedding of v0.1 `variance`: sample variance with divisor `n - 1`,
NaN (`none`) for fewer than two observations. -/
def variance (arr : List ℚ) : Option ℚ :=
  if arr.length < 2 then none
  else
    let mean := arr.sum / (arr.length : ℚ)
    some ((arr.map (fun x => (x - mean) * (x - mean))).sum / ((arr.length : ℚ) - 1))

/-- Embedding of v0.1 `covariance`: sample covariance with divisor `n - 1`,
NaN (`none`) on length mismatch or fewer than two observations. -/
def covariance (a b : List ℚ) : Option ℚ :=
  if a.length ≠ b.length ∨ a.length < 2 then none
  else
    let meanA := a.sum / (a.length : ℚ)
    let meanB := b.sum / (b.length : ℚ)
    some (((a.zip b).map (fun p => (p.1 - meanA) * (p.2 - meanB))).sum
      / ((a.length : ℚ) - 1))

/-- Embedding of v0.1 `betaFromReturns`: NaN when the market variance is
NaN or exactly zero, otherwise covariance divided by variance (a NaN
covariance propagates through the division). -/
def betaFromReturns (assetR mktR : List ℚ) : Option ℚ :=
  match variance mktR with
  | none => none
  | some v => if v = 0 then none else (covariance assetR mktR).map (fun c => c / v)

/-- Embedding of v0.2 `calculateBeta`: raw centered sums, NaN when
`n < 20`, when the market vector is shorter than the asset vector (an
out-of-range access makes the JS result NaN), or when the raw variance sum
is zero. -/
def calculateBeta (asset mkt : List ℚ) : Option ℚ :=
  let n := asset.length
  if n < 20 then none
  else if mkt.length < n then none
  else
    let meanA := asset.sum / (n : ℚ)
    let meanM := mkt.sum / (n : ℚ)
    let cov := ((asset.zip mkt).map (fun p => (p.1 - meanA) * (p.2 - meanM))).sum
    let varM := ((mkt.take n).map (fun x => (x - meanM) * (x - meanM))).sum
    if varM = 0 then none else some (cov / varM)

/-- Mean of a list, as used by the sample formulas of the claim. -/
def sampleMean (l : List ℚ) : ℚ := l.sum / (l.length : ℚ)

/-- Sample variance with divisor `n - 1`, written from the claim. -/
def specVariance (l : List ℚ) : ℚ :=
  (l.map (fun x => (x - sampleMean l) * (x - sampleMean l))).sum
    / ((l.length : ℚ) - 1)

/-- Sample covariance with divisor `n - 1`, written from the claim. -/
def specCovariance (a b : List ℚ) : ℚ :=
  ((a.zip b).map (fun p => (p.1 - sampleMean a) * (p.2 - sampleMean b))).sum
    / ((a.length : ℚ) - 1)

/-- The beta computation as the claim states it: the undefined sentinel
when `n < 2` or the sample variance of the market vector is exactly zero,
and otherwise sample covariance over sample variance. -/
def betaClaim (a m : List ℚ) : Option ℚ :=
  if a.length < 2 ∨ specVariance m = 0 then none
  else some (specCovariance a m / specVariance m)

/-- The value-and-sample-size pair recorded by the v0.1 per-holding loop
(`beta` and `n: Math.min(aligned.asset.length, aligned.mkt.length)`,
lines 377-385). -/
def betaEstimateV1 (a m : List ℚ) : Option ℚ × ℕ :=
  (betaFromReturns a m, min a.length m.length)

/-- The value-and-sample-size pair the claim describes. -/
def betaClaimEstimate (a m : List ℚ) : Option ℚ × ℕ := (betaClaim a m, a.length)

theorem variance_eq_spec {m : List ℚ} (h2 : 2 ≤ m.length) :
    variance m = some (specVariance m) := by
  simp only [variance, specVariance, sampleMean]
  rw [if_neg (by omega)]

theorem covariance_eq_spec {a m : List ℚ} (h : a.length = m.length)
    (h2 : 2 ≤ a.length) : covariance a m = some (specCovariance a m) := by
  simp only [covariance, specCovariance, sampleMean]
  rw [if_neg (by push_neg; exact ⟨h, by omega⟩)]

theorem div_div_same_cancel (x y c : ℚ) (hy : y ≠ 0) (hc : c ≠ 0) :
    (x / c) / (y / c) = x / y := by
  field_simp

/-- C1 (amended): for equal-length vectors, the v0.1 beta computation
(`betaFromReturns` plus the recorded sample size) behaves exactly as the
claim states, while the v0.2 `calculateBeta` agrees with the claimed
formula only once `n >= 20`: below that it returns the undefined sentinel
even when the claimed formula is defined. -/
theorem C1_beta_corrected (a m : List ℚ) (h : a.length = m.length) :
    betaEstimateV1 a m = betaClaimEstimate a m ∧
      calculateBeta a m = (if a.length < 20 then none else betaClaim a m) := by
  constructor
  · unfold betaEstimateV1 betaClaimEstimate
    rw [h, min_self]
    congr 1
    by_cases h2 : a.length < 2
    · have hv : variance m = none := by
        simp only [variance]
        rw [if_pos (by omega)]
      simp only [betaFromReturns, hv, betaClaim]
      rw [if_pos (Or.inl h2)]
    · have hv := variance_eq_spec (m := m) (by omega)
      simp only [betaFromReturns, hv]
      by_cases hz : specVariance m = 0
      · rw [if_pos hz]
        simp only [betaClaim]
        rw [if_pos (Or.inr hz)]
      · rw [if_neg hz, covariance_eq_spec h (by omega)]
        simp only [Option.map_some', betaClaim]
        rw [if_neg (by push_neg; exact ⟨by omega, hz⟩)]
  · by_cases h20 : a.length < 20
    · simp only [calculateBeta]
      rw [if_pos h20, if_pos h20]
    · have hml : ¬ (m.length < a.length) := by omega
      have hn1 : ((a.length : ℚ) - 1) ≠ 0 := by
        have h2c : (2 : ℚ) ≤ (a.length : ℚ) := by
          exact_mod_cast (by omega : 2 ≤ a.length)
        linarith
      have htake : m.take a.length = m := by rw [h]; exact List.take_length m
      simp only [calculateBeta]
      rw [if_neg h20, if_neg hml, htake, if_neg h20]
      have hmm : (m.sum / (a.length : ℚ)) = sampleMean m := by
        rw [sampleMean, h]
      have hma : (a.sum / (a.length : ℚ)) = sampleMean a := rfl
      simp only [hmm, hma]
      have hsv : specVariance m
          = (m.map (fun x => (x - sampleMean m) * (x - sampleMean m))).sum
            / ((a.length : ℚ) - 1) := by
        rw [specVariance, h]
      have hsc : specCovariance a m
          = ((a.zip m).map
              (fun p => (p.1 - sampleMean a) * (p.2 - sampleMean m))).sum
            / ((a.length : ℚ) - 1) := rfl
      simp only [betaClaim, hsv, hsc]
      by_cases hz :
          (m.map (fun x => (x - sampleMean m) * (x - sampleMean m))).sum = 0
      · rw [if_pos hz, if_pos (Or.inr (by rw [hz]; simp))]
      · rw [if_neg hz, if_neg (by
          push_neg
          refine ⟨by omega, ?_⟩
          intro e
          rcases div_eq_zero_iff.mp e with e1 | e2
          · exact hz e1
          · exact hn1 e2)]
        rw [div_div_same_cancel _ _ _ hz hn1]

/-- C1 counterexample: on the concrete equal-length pair `[0, 1]` and
`[0, 1]` (two observations, nonzero sample variance), the claimed formula
yields beta 1, but v0.2 `calculateBeta` returns the undefined sentinel
because of its `n < 20` guard, refuting the claim as stated. -/
theorem C1_beta_counterexample :
    calculateBeta [0, 1] [0, 1] = none
      ∧ betaClaim [0, 1] [0, 1] = some 1 := by
  constructor
  · rfl
  · norm_num [betaClaim, specVariance, specCovariance, sampleMean]

/-- C1 witness: the amended theorem applied at a concrete input. -/
theorem C1_beta_corrected_witness :
    betaEstimateV1 [0, 1] [2, 3] = betaClaimEstimate [0, 1] [2, 3] ∧
      calculateBeta [0, 1] [2, 3]
        = (if ([0, 1] : List ℚ).length < 20 then none else betaClaim [0, 1] [2, 3]) :=
  C1_beta_corrected [0, 1] [2, 3] rfl

/-! ## Price rows and daily returns (source: v0.1 `toReturns`,
lines 96-106, and v0.2 `toReturns`, lines 619-626). -/

/-- A parsed price row: a date string and a close price. -/
structure PriceRow where
  date : String
  close : ℚ
deriving DecidableEq

/-- A daily return row: the date of the later price and the simple return. -/
structure RetRow where
  date : String
  r : ℚ
deriving DecidableEq

/-- Embedding of v0.1 `toReturns`: the loop `for (i = 1; ...)` skips a
consecutive pair only when the earlier close is non-positive (finiteness is
automatic over the rationals); the later close is not tested. -/
def toReturnsV1 : List PriceRow → List RetRow
  | p :: q :: rest =>
      (if 0 < p.close then [⟨q.date, q.close / p.close - 1⟩] else [])
        ++ toReturnsV1 (q :: rest)
  | _ => []

/-- Embedding of v0.2 `toReturns`: a pair is emitted only when both closes
are strictly positive. -/
def toReturnsV2 : List PriceRow → List RetRow
  | p :: q :: rest =>
      (if 0 < p.close ∧ 0 < q.close then [⟨q.date, q.close / p.close - 1⟩] else [])
        ++ toReturnsV2 (q :: rest)
  | _ => []

/-- The returns conversion exactly as the claim states it: over consecutive
pairs, emit when both closes are strictly positive, silently skip
otherwise. -/
def toReturnsClaim (rows : List PriceRow) : List RetRow :=
  (rows.zip rows.tail).filterMap (fun p =>
    if 0 < p.1.close ∧ 0 < p.2.close
    then some ⟨p.2.date, p.2.close / p.1.close - 1⟩ else none)

/-- C4 (amended): the v0.2 returns conversion behaves exactly as the claim
states; the v0.1 conversion skips a pair only when the earlier close is
non-positive, so it still emits a row when the later close is zero or
negative. -/
theorem C4_returns_corrected :
    (∀ rows, toReturnsV2 rows = toReturnsClaim rows) ∧
      (∀ rows, toReturnsV1 rows
        = (rows.zip rows.tail).filterMap (fun p =>
            if 0 < p.1.close
            then some ⟨p.2.date, p.2.close / p.1.close - 1⟩ else none)) := by
  constructor
  · intro rows
    induction rows with
    | nil => rfl
    | cons p rest ih =>
      cases rest with
      | nil => rfl
      | cons q rest2 =>
        simp only [toReturnsV2, toReturnsClaim, List.tail_cons,
          List.zip_cons_cons, List.filterMap_cons] at *
        split
        · simp only [List.singleton_append, ih]
        · simp only [List.nil_append, ih]
  · intro rows
    induction rows with
    | nil => rfl
    | cons p rest ih =>
      cases rest with
      | nil => rfl
      | cons q rest2 =>
        simp only [toReturnsV1, List.tail_cons,
          List.zip_cons_cons, List.filterMap_cons] at *
        split
        · simp only [List.singleton_append, ih]
        · simp only [List.nil_append, ih]

/-- C4 counterexample: on the price pair (100, -50) the claim demands the
pair be skipped, but v0.1 `toReturns` emits the row with return -3/2.  The
claimed conversion (equal to v0.2) produces the empty list. -/
theorem C4_returns_counterexample :
    toReturnsV1 [⟨"d1", 100⟩, ⟨"d2", -50⟩] = [⟨"d2", -(3/2)⟩]
      ∧ toReturnsClaim [⟨"d1", 100⟩, ⟨"d2", -50⟩] = [] := by
  constructor
  · norm_num [toReturnsV1]
  · norm_num [toReturnsClaim]

/-! ## Date alignment (source: `alignReturns`, identical logic in v0.1
lines 108-120 and v0.2 lines 628-636). -/

/-- Lookup in the date-to-return map built by `new Map(mkt.map(x => [x.date,
x.r]))`; with duplicate dates the later entry wins, so the lookup returns
the last matching element. -/
def mktLookup (mkt : List RetRow) (d : String) : Option ℚ :=
  ((mkt.filter (fun x => x.date == d)).getLast?).map RetRow.r

/-- Embedding of `alignReturns`: walk the asset series in order, keep the
paired values for every date present in the market map. -/
def alignReturns (asset mkt : List RetRow) : List ℚ × List ℚ :=
  match asset with
  | [] => ([], [])
  | a :: rest =>
    match mktLookup mkt a.date with
    | none => alignReturns rest mkt
    | some mv =>
      let al := alignReturns rest mkt
      (a.r :: al.1, mv :: al.2)

theorem mktLookup_isSome_iff (mkt : List RetRow) (d : String) :
    (mktLookup mkt d).isSome = true ↔ d ∈ mkt.map RetRow.date := by
  unfold mktLookup
  rw [Option.isSome_map']
  rw [List.getLast?_isSome]
  constructor
  · intro h
    obtain ⟨x, hx⟩ := List.exists_mem_of_ne_nil _ h
    have := List.mem_filter.mp hx
    rw [List.mem_map]
    exact ⟨x, this.1, by simpa using this.2⟩
  · intro h
    obtain ⟨x, hx, he⟩ := List.mem_map.mp h
    intro hnil
    have : x ∈ mkt.filter (fun x => x.date == d) :=
      List.mem_filter.mpr ⟨hx, by simp [he]⟩
    rw [hnil] at this
    simp at this

theorem alignReturns_fst_eq (asset mkt : List RetRow) :
    (alignReturns asset mkt).1
      = (asset.filter (fun a => (mktLookup mkt a.date).isSome)).map RetRow.r := by
  induction asset with
  | nil => rfl
  | cons a rest ih =>
    rcases hl : mktLookup mkt a.date with _ | mv
    · simp only [alignReturns, hl, List.filter_cons, Option.isSome_none,
        Bool.false_eq_true, if_false, ih]
    · simp only [alignReturns, hl, List.filter_cons, Option.isSome_some,
        if_true, List.map_cons, ih]

theorem alignReturns_length_eq (asset mkt : List RetRow) :
    (alignReturns asset mkt).1.length = (alignReturns asset mkt).2.length := by
  induction asset with
  | nil => rfl
  | cons a rest ih =>
    rcases hl : mktLookup mkt a.date with _ | mv
    · simpa only [alignReturns, hl] using ih
    · simp only [alignReturns, hl, List.length_cons]
      omega

theorem alignReturns_empty_of_disjoint (asset mkt : List RetRow)
    (h : ∀ a ∈ asset, a.date ∉ mkt.map RetRow.date) :
    alignReturns asset mkt = ([], []) := by
  induction asset with
  | nil => rfl
  | cons a rest ih =>
    have hn : mktLookup mkt a.date = none := by
      rcases hl : mktLookup mkt a.date with _ | mv
      · rfl
      · exact absurd ((mktLookup_isSome_iff mkt a.date).mp (by rw [hl]; rfl))
          (h a (List.mem_cons_self a rest))
    simp only [alignReturns, hn]
    exact ih (fun x hx => h x (List.mem_cons_of_mem a hx))

theorem alignReturns_length_inter (asset mkt : List RetRow)
    (hnd : (asset.map RetRow.date).Nodup) :
    (alignReturns asset mkt).1.length
      = ((asset.map RetRow.date).toFinset ∩ (mkt.map RetRow.date).toFinset).card := by
  rw [alignReturns_fst_eq, List.length_map]
  have h1 : asset.filter (fun a => (mktLookup mkt a.date).isSome)
      = asset.filter (fun a => a.date ∈ mkt.map RetRow.date) := by
    apply List.filter_congr
    intro a _
    rcases hl : (mktLookup mkt a.date).isSome with _ | _
    · symm
      rw [decide_eq_false_iff_not]
      intro hmem
      rw [← mktLookup_isSome_iff] at hmem
      rw [hl] at hmem
      exact Bool.false_ne_true hmem
    · symm
      rw [decide_eq_true_eq]
      exact (mktLookup_isSome_iff mkt a.date).mp hl
  rw [h1]
  have h2 : (asset.filter (fun a => a.date ∈ mkt.map RetRow.date)).length
      = ((asset.map RetRow.date).filter
          (fun d => d ∈ mkt.map RetRow.date)).length := by
    rw [List.filter_map]
    rw [List.length_map]
    rfl
  rw [h2]
  have hndf : ((asset.map RetRow.date).filter
      (fun d => d ∈ mkt.map RetRow.date)).Nodup := List.Nodup.filter _ hnd
  rw [← List.toFinset_card_of_nodup hndf, List.toFinset_filter]
  congr 1
  rw [← Finset.filter_mem_eq_inter]
  apply Finset.filter_congr
  intro d hd
  simp

/-- C6: the aligner always produces two vectors of equal length; under
distinct asset dates that length is the size of the date intersection; the
asset-side output preserves the asset series order (it is the in-order
filter of the asset series); and disjoint date sets give two empty vectors
rather than an error. -/
theorem C6_align_confirmed :
    (∀ asset mkt : List RetRow,
        (alignReturns asset mkt).1.length = (alignReturns asset mkt).2.length)
    ∧ (∀ asset mkt : List RetRow, (asset.map RetRow.date).Nodup →
        (alignReturns asset mkt).1.length
          = ((asset.map RetRow.date).toFinset
              ∩ (mkt.map RetRow.date).toFinset).card)
    ∧ (∀ asset mkt : List RetRow,
        (alignReturns asset mkt).1
          = (asset.filter (fun a => (mktLookup mkt a.date).isSome)).map RetRow.r)
    ∧ (∀ asset mkt : List RetRow, (∀ a ∈ asset, a.date ∉ mkt.map RetRow.date) →
        alignReturns asset mkt = ([], [])) :=
  ⟨alignReturns_length_eq, alignReturns_length_inter, alignReturns_fst_eq,
    alignReturns_empty_of_disjoint⟩

/-- C6 witness: the equal-length, intersection-size and disjoint-date parts
applied at concrete series. -/
theorem C6_align_confirmed_witness :
    ((alignReturns [⟨"a", 1⟩, ⟨"b", 2⟩] [⟨"b", 3⟩, ⟨"c", 4⟩]).1.length
      = ((([⟨"a", 1⟩, ⟨"b", 2⟩] : List RetRow).map RetRow.date).toFinset
          ∩ (([⟨"b", 3⟩, ⟨"c", 4⟩] : List RetRow).map RetRow.date).toFinset).card)
    ∧ alignReturns [⟨"a", (1 : ℚ)⟩] [⟨"b", 2⟩] = ([], []) :=
  ⟨C6_align_confirmed.2.1 _ _ (by decide),
    C6_align_confirmed.2.2.2 _ _ (by decide)⟩

/-! ## The beta cache (source: v0.2 `getCachedBeta` and `setCachedBeta`,
lines 553-572). -/

/-- A cache record as serialized by `setCachedBeta`: since `JSON.stringify`
turns a NaN beta into `null`, the beta field of a parsed record is
optional. -/
structure CacheVal where
  beta : Option ℚ
  n : ℕ
  timestamp : ℕ
deriving DecidableEq

/-- The injected key-value store (browser localStorage): keys map to
optional raw values, and a present raw value either parses as a cache
record (`some (some v)`) or fails to parse (`some none`). -/
def Store : Type := String → Option (Option CacheVal)

/-- The 24-hour TTL `CACHE_DURATION_MS`. -/
def cacheDurationMs : ℕ := 24 * 60 * 60 * 1000

/-- The literal `CACHE_PREFIX`. -/
def cachePref : String := "mb_beta_cache_v2_"

/-- Cache key composition from `getCachedBeta` and `setCachedBeta`. -/
def cacheKey (source symbol market : String) (lookback : ℕ) : String :=
  cachePref ++ source ++ "_" ++ symbol ++ "_" ++ market ++ "_"
    ++ toString lookback

/-- Embedding of `getCachedBeta`: an absent key or an unparseable stored
value yields null (the parse failure is swallowed by the catch); an entry
strictly older than the TTL is removed and yields null; otherwise the
parsed record is returned.  Time is an explicit `now` in milliseconds. -/
def getCachedBeta (store : Store) (now : ℕ) (source symbol market : String)
    (lookback : ℕ) : Option CacheVal × Store :=
  let key := cacheKey source symbol market lookback
  match store key with
  | none => (none, store)
  | some none => (none, store)
  | some (some d) =>
    if cacheDurationMs < now - d.timestamp
    then (none, fun k => if k = key then none else store k)
    else (some d, store)

/-- Embedding of `setCachedBeta`: store the record under the composed key
with the current timestamp, overwriting any prior entry. -/
def setCachedBeta (store : Store) (now : ℕ) (source symbol market : String)
    (lookback : ℕ) (beta : Option ℚ) (n : ℕ) : Store :=
  let key := cacheKey source symbol market lookback
  fun k => if k = key then some (some ⟨beta, n, now⟩) else store k

/-- C5: a put followed immediately by a get for the same key returns
exactly the stored beta and sample size; a stored entry strictly older than
the 24-hour TTL reads as absent; an unparseable stored value reads as
absent instead of raising. -/
theorem C5_cache_confirmed :
    (∀ (store : Store) (now : ℕ) (src sym mkt : String) (lb : ℕ)
        (beta : Option ℚ) (n : ℕ),
        (getCachedBeta (setCachedBeta store now src sym mkt lb beta n)
            now src sym mkt lb).1 = some ⟨beta, n, now⟩)
    ∧ (∀ (store : Store) (now : ℕ) (src sym mkt : String) (lb : ℕ)
        (d : CacheVal),
        store (cacheKey src sym mkt lb) = some (some d) →
        cacheDurationMs < now - d.timestamp →
        (getCachedBeta store now src sym mkt lb).1 = none)
    ∧ (∀ (store : Store) (now : ℕ) (src sym mkt : String) (lb : ℕ),
        store (cacheKey src sym mkt lb) = some none →
        (getCachedBeta store now src sym mkt lb).1 = none) := by
  refine ⟨?_, ?_, ?_⟩
  · intro store now src sym mkt lb beta n
    simp [getCachedBeta, setCachedBeta]
  · intro store now src sym mkt lb d h ht
    simp only [getCachedBeta, h]
    rw [if_pos ht]
  · intro store now src sym mkt lb h
    simp [getCachedBeta, h]

/-- C5 witness: the three cache facts applied at concrete stores. -/
theorem C5_cache_confirmed_witness :
    (getCachedBeta
        (setCachedBeta (fun _ => none) 5 "stooq" "aapl.us" "spy.us" 252
          (some 1) 100) 5 "stooq" "aapl.us" "spy.us" 252).1
      = some ⟨some 1, 100, 5⟩
    ∧ (getCachedBeta
        (fun k => if k = cacheKey "stooq" "aapl.us" "spy.us" 252
          then some (some ⟨some 2, 3, 0⟩) else none)
        (10 ^ 9) "stooq" "aapl.us" "spy.us" 252).1 = none
    ∧ (getCachedBeta
        (fun k => if k = cacheKey "stooq" "a" "m" 1 then some none else none)
        0 "stooq" "a" "m" 1).1 = none :=
  ⟨C5_cache_confirmed.1 _ _ _ _ _ _ _ _,
    C5_cache_confirmed.2.1 _ _ _ _ _ _ _ (if_pos rfl)
      (by norm_num [cacheDurationMs]),
    C5_cache_confirmed.2.2 _ _ _ _ _ _ (if_pos rfl)⟩

/-! ## Per-holding orchestration (source: v0.2 `mb_calc` handler loop,
lines 896-916, and v0.1 `mb_calc` handler loop, lines 365-386).  The
composite fetch-and-parse is an oracle `String -> Except String (List
PriceRow)`; the shared market return series is a parameter, computed once
before the loop in the source. -/

/-- A holding after parsing: a ticker and a (normalized) weight. -/
structure HoldingW where
  ticker : List Char
  weight : ℚ
deriving DecidableEq

/-- A per-holding outcome row pushed by the v0.2 loop. -/
structure ResultRow where
  ticker : List Char
  weight : ℚ
  beta : Option ℚ
  n : ℕ
  cached : Bool
  error : Bool
deriving DecidableEq

/-- The last `k` elements, modelling `arr.slice(-k)`. -/
def sliceLast (l : List PriceRow) (k : ℕ) : List PriceRow :=
  l.drop (l.length - k)

/-- One iteration of the v0.2 per-holding loop: check the cache, otherwise
fetch, convert, align and compute; cache the result only when the beta is
not NaN; any fetch failure is caught and recorded as a failed row. -/
def stepHolding (fetch : String → Except String (List PriceRow))
    (source market : String) (lookback now : ℕ) (marketRets : List RetRow)
    (store : Store) (h : HoldingW) : ResultRow × Store :=
  let sym := String.mk (normalizeTicker h.ticker source)
  match getCachedBeta store now source sym market lookback with
  | (some c, store1) => (⟨h.ticker, h.weight, c.beta, c.n, true, false⟩, store1)
  | (none, store1) =>
    match fetch sym with
    | .error _ => (⟨h.ticker, h.weight, none, 0, false, true⟩, store1)
    | .ok prices =>
      let assetRets := toReturnsV2 (sliceLast prices (lookback + 10))
      let al := alignReturns assetRets marketRets
      let beta := calculateBeta al.1 al.2
      let store2 :=
        if beta.isSome
        then setCachedBeta store1 now source sym market lookback beta al.1.length
        else store1
      (⟨h.ticker, h.weight, beta, al.1.length, false, false⟩, store2)

/-- The v0.2 per-holding loop over a list of holdings, threading the
store. -/
def runHoldingsV2 (fetch : String → Except String (List PriceRow))
    (source market : String) (lookback now : ℕ) (marketRets : List RetRow) :
    Store → List HoldingW → List ResultRow × Store
  | store, [] => ([], store)
  | store, h :: rest =>
    let rs := stepHolding fetch source market lookback now marketRets store h
    let rest2 := runHoldingsV2 fetch source market lookback now marketRets
      rs.2 rest
    (rs.1 :: rest2.1, rest2.2)

/-- A per-holding outcome row pushed by the v0.1 loop. -/
structure ResultV1 where
  ticker : List Char
  stooq : List Char
  weight : ℚ
  beta : Option ℚ
  n : ℕ
deriving DecidableEq

/-- The v0.1 per-holding loop: it has no try/catch of its own, so a fetch
failure propagates to the whole batch. -/
def runHoldingsV1 (fetch : String → Except String (List PriceRow))
    (lookback : ℕ) (marketRets : List RetRow) :
    List HoldingW → Except String (List ResultV1)
  | [] => .ok []
  | h :: rest =>
    let sym := normalizeToStooqSymbol h.ticker
    if sym = [] then runHoldingsV1 fetch lookback marketRets rest
    else
      match fetch (String.mk sym) with
      | .error e => .error e
      | .ok prices =>
        let assetRets := toReturnsV1 (sliceLast prices (lookback + 5))
        let al := alignReturns assetRets marketRets
        match runHoldingsV1 fetch lookback marketRets rest with
        | .error e => .error e
        | .ok rs =>
          .ok (⟨h.ticker, sym, h.weight, betaFromReturns al.1 al.2,
            min al.1.length al.2.length⟩ :: rs)

theorem stepHolding_error_shape (fetch : String → Except String (List PriceRow))
    (source market : String) (lookback now : ℕ) (marketRets : List RetRow)
    (store : Store) (h : HoldingW)
    (he : (stepHolding fetch source market lookback now marketRets store h).1.error
      = true) :
    (stepHolding fetch source market lookback now marketRets store h).1.beta = none
    ∧ (stepHolding fetch source market lookback now marketRets store h).1.n = 0
    ∧ (stepHolding fetch source market lookback now marketRets store h).1.cached
        = false := by
  rcases hg : getCachedBeta store now source
      (String.mk (normalizeTicker h.ticker source)) market lookback with ⟨og, store1⟩
  rcases og with _ | c
  · rcases hf : fetch (String.mk (normalizeTicker h.ticker source)) with e | prices
    · simp [stepHolding, hg, hf]
    · simp [stepHolding, hg, hf] at he
  · simp [stepHolding, hg] at he

theorem runHoldingsV2_length (fetch : String → Except String (List PriceRow))
    (source market : String) (lookback now : ℕ) (marketRets : List RetRow) :
    ∀ (holdings : List HoldingW) (store : Store),
      (runHoldingsV2 fetch source market lookback now marketRets store
        holdings).1.length = holdings.length := by
  intro holdings
  induction holdings with
  | nil => intro store; rfl
  | cons h rest ih =>
    intro store
    simp only [runHoldingsV2, List.length_cons, ih]

theorem runHoldingsV2_error_shape (fetch : String → Except String (List PriceRow))
    (source market : String) (lookback now : ℕ) (marketRets : List RetRow) :
    ∀ (holdings : List HoldingW) (store : Store) (r : ResultRow),
      r ∈ (runHoldingsV2 fetch source market lookback now marketRets store
        holdings).1 →
      r.error = true → r.beta = none ∧ r.n = 0 ∧ r.cached = false := by
  intro holdings
  induction holdings with
  | nil => intro store r hr; simp [runHoldingsV2] at hr
  | cons h rest ih =>
    intro store r hr he
    simp only [runHoldingsV2, List.mem_cons] at hr
    rcases hr with hr | hr
    · subst hr
      exact stepHolding_error_shape fetch source market lookback now marketRets
        store h he
    · exact ih _ r hr he

/-- Stores in which every parseable entry has a defined (non-NaN) beta. -/
def GoodStore (store : Store) : Prop :=
  ∀ k v, store k = some (some v) → (v.beta).isSome = true

theorem goodStore_getCached {store : Store} (hg : GoodStore store)
    (now : ℕ) (source symbol market : String) (lookback : ℕ) :
    GoodStore (getCachedBeta store now source symbol market lookback).2 := by
  unfold getCachedBeta
  rcases hk : store (cacheKey source symbol market lookback) with _ | od
  · simpa [hk] using hg
  · rcases od with _ | d
    · simpa [hk] using hg
    · simp only [hk]
      split
      · intro k v hv
        simp only at hv
        split at hv
        · exact absurd hv (by simp)
        · exact hg k v hv
      · exact hg

theorem goodStore_setCached {store : Store} (hg : GoodStore store)
    (now : ℕ) (source symbol market : String) (lookback : ℕ)
    {beta : Option ℚ} (hb : beta.isSome = true) (n : ℕ) :
    GoodStore (setCachedBeta store now source symbol market lookback beta n) := by
  intro k v hv
  unfold setCachedBeta at hv
  split at hv
  · simp only [Option.some.injEq] at hv
    rw [← hv]
    exact hb
  · exact hg k v hv

theorem goodStore_step (fetch : String → Except String (List PriceRow))
    (source market : String) (lookback now : ℕ) (marketRets : List RetRow)
    {store : Store} (hg : GoodStore store) (h : HoldingW) :
    GoodStore (stepHolding fetch source market lookback now marketRets store h).2 := by
  have hg1 := goodStore_getCached hg now source
    (String.mk (normalizeTicker h.ticker source)) market lookback
  rcases hgc : getCachedBeta store now source
      (String.mk (normalizeTicker h.ticker source)) market lookback with ⟨og, store1⟩
  rw [hgc] at hg1
  rcases og with _ | c
  · rcases hf : fetch (String.mk (normalizeTicker h.ticker source)) with e | prices
    · simpa [stepHolding, hgc, hf] using hg1
    · simp only [stepHolding, hgc, hf]
      split
      · next hb => exact goodStore_setCached hg1 now source _ market lookback hb _
      · exact hg1
  · simpa [stepHolding, hgc] using hg1

/-- C9: per-holding processing preserves the invariant that every
parseable cache entry carries a defined beta; the only cache write is
guarded by `!isNaN(beta)`. -/
theorem C9_cache_writes_defined
    (fetch : String → Except String (List PriceRow)) (source market : String)
    (lookback now : ℕ) (marketRets : List RetRow) :
    ∀ (holdings : List HoldingW) (store : Store), GoodStore store →
      GoodStore (runHoldingsV2 fetch source market lookback now marketRets
        store holdings).2 := by
  intro holdings
  induction holdings with
  | nil => intro store hg; exact hg
  | cons h rest ih =>
    intro store hg
    simp only [runHoldingsV2]
    exact ih _ (goodStore_step fetch source market lookback now marketRets hg h)

/-- C9 witness: the invariant theorem applied to a one-holding batch over
an initially empty store. -/
theorem C9_cache_writes_defined_witness :
    GoodStore ((runHoldingsV2 (fun _ => .error "down") "stooq" "spy.us" 252 0 []
      (fun _ => none) [⟨['A'], 1⟩]).2) :=
  C9_cache_writes_defined (fun _ => .error "down") "stooq" "spy.us" 252 0 []
    [⟨['A'], 1⟩] (fun _ => none) (fun _ _ hv => Option.noConfusion hv)

/-- C3 (amended): in the v0.2 script the claim holds: a failed fetch on a
cache miss is caught at the holding level and recorded as a failed row with
undefined beta and sample size 0, and the loop still produces one row per
holding.  In the v0.1 script there is no per-holding catch, so one failure
aborts the whole batch (see the counterexample). -/
theorem C3_perholding_corrected :
    (∀ (fetch : String → Except String (List PriceRow)) (source market : String)
        (lookback now : ℕ) (marketRets : List RetRow) (holdings : List HoldingW)
        (store : Store),
        (runHoldingsV2 fetch source market lookback now marketRets store
          holdings).1.length = holdings.length)
    ∧ (∀ (fetch : String → Except String (List PriceRow)) (source market : String)
        (lookback now : ℕ) (marketRets : List RetRow) (holdings : List HoldingW)
        (store : Store) (r : ResultRow),
        r ∈ (runHoldingsV2 fetch source market lookback now marketRets store
          holdings).1 →
        r.error = true → r.beta = none ∧ r.n = 0 ∧ r.cached = false)
    ∧ (∀ (fetch : String → Except String (List PriceRow)) (source market : String)
        (lookback now : ℕ) (marketRets : List RetRow) (store : Store)
        (h : HoldingW),
        (getCachedBeta store now source
          (String.mk (normalizeTicker h.ticker source)) market lookback).1 = none →
        (∃ e, fetch (String.mk (normalizeTicker h.ticker source)) = .error e) →
        (stepHolding fetch source market lookback now marketRets store h).1
          = ⟨h.ticker, h.weight, none, 0, false, true⟩) := by
  refine ⟨?_, ?_, ?_⟩
  · intro fetch source market lookback now marketRets holdings store
    exact runHoldingsV2_length fetch source market lookback now marketRets
      holdings store
  · intro fetch source market lookback now marketRets holdings store r hr he
    exact runHoldingsV2_error_shape fetch source market lookback now marketRets
      holdings store r hr he
  · intro fetch source market lookback now marketRets store h hmiss hfail
    obtain ⟨e, hf⟩ := hfail
    rcases hg : getCachedBeta store now source
        (String.mk (normalizeTicker h.ticker source)) market lookback with ⟨og, store1⟩
    rw [hg] at hmiss
    simp only at hmiss
    subst hmiss
    simp [stepHolding, hg, hf]

/-- C3 counterexample: in v0.1, with a transport that fails, a two-holding
batch aborts with the error instead of recording both holdings as failed
rows; the second holding is never processed. -/
theorem C3_perholding_counterexample :
    runHoldingsV1 (fun _ => .error "Network Error") 252 []
        [⟨"AAPL".data, 1/2⟩, ⟨"MSFT".data, 1/2⟩]
      = .error "Network Error" := by
  rfl

/-- C3 witness: the per-holding catch equation applied at a concrete
failing fetch over an empty store. -/
theorem C3_perholding_corrected_witness :
    (stepHolding (fun _ => .error "boom") "stooq" "spy.us" 252 0 []
        (fun _ => none) ⟨['A'], 1⟩).1 = ⟨['A'], 1, none, 0, false, true⟩ :=
  C3_perholding_corrected.2.2 (fun _ => .error "boom") "stooq" "spy.us" 252 0 []
    (fun _ => none) ⟨['A'], 1⟩ rfl ⟨"boom", rfl⟩

/-! ## Portfolio aggregation (source: v0.1 reduce, lines 389-392, and the
v0.2 `renderTable` recalc closure, lines 958-967). -/

/-- Embedding of the v0.1 portfolio reduce: an undefined (NaN) beta is
replaced by 0 before multiplying by the weight. -/
def portfolioBetaV1 (results : List ResultV1) : ℚ :=
  results.foldl
    (fun s r => s + r.weight * (match r.beta with | some b => b | none => 0)) 0

/-- Embedding of the v0.2 recalc closure over the rendered rows: each row
carries its weight and the beta currently in its input box (absent when the
box does not parse); rows without a beta are skipped by both running sums,
and the total is shown only when the covered weight is positive. -/
def recalcV2 (rows : List (ℚ × Option ℚ)) : Option ℚ :=
  let sum : ℚ := rows.foldl
    (fun s p => match p.2 with | some b => s + p.1 * b | none => s) 0
  let wTotal : ℚ := rows.foldl
    (fun s p => match p.2 with | some _ => s + p.1 | none => s) 0
  if 0 < wTotal then some sum else none

theorem foldl_add_eq {α : Type} (f : α → ℚ) :
    ∀ (l : List α) (a : ℚ), l.foldl (fun s x => s + f x) a = a + (l.map f).sum := by
  intro l
  induction l with
  | nil => intro a; simp
  | cons x xs ih =>
    intro a
    simp only [List.foldl_cons, List.map_cons, List.sum_cons, ih, add_assoc]

theorem portfolioBetaV1_eq (results : List ResultV1) :
    portfolioBetaV1 results
      = (results.map (fun r => r.weight * r.beta.getD 0)).sum := by
  unfold portfolioBetaV1
  have hf : (fun (s : ℚ) (r : ResultV1) =>
        s + r.weight * (match r.beta with | some b => b | none => 0))
      = fun s r => s + r.weight * r.beta.getD 0 := by
    funext s r
    rcases r.beta with _ | b <;> simp
  rw [hf, foldl_add_eq, zero_add]

theorem recalcV2_eq (rows : List (ℚ × Option ℚ)) (s : ℚ)
    (h : recalcV2 rows = some s) :
    s = (rows.map (fun p => p.1 * p.2.getD 0)).sum := by
  simp only [recalcV2] at h
  split at h
  · have hf : (fun (s : ℚ) (p : ℚ × Option ℚ) =>
          match p.2 with | some b => s + p.1 * b | none => s)
        = fun s p => s + p.1 * p.2.getD 0 := by
      funext s p
      rcases p.2 with _ | b <;> simp
    rw [hf, foldl_add_eq, zero_add] at h
    exact (Option.some.injEq _ _ ▸ h).symm
  · exact absurd h (by simp)

/-- C2: the portfolio beta is the weight-weighted sum of betas with
undefined betas contributing zero, over the full normalized weights (no
renormalization over the defined-beta holdings): the v0.1 reduce equals the
sum unconditionally, and whenever the v0.2 recalc displays a total it
equals the same sum. -/
theorem C2_portfolio_confirmed :
    (∀ results : List ResultV1,
        portfolioBetaV1 results
          = (results.map (fun r => r.weight * r.beta.getD 0)).sum)
    ∧ (∀ (rows : List (ℚ × Option ℚ)) (s : ℚ), recalcV2 rows = some s →
        s = (rows.map (fun p => p.1 * p.2.getD 0)).sum) :=
  ⟨portfolioBetaV1_eq, recalcV2_eq⟩

/-- C2 witness: a two-row table in which one beta is undefined; the
displayed total equals the sum with the undefined beta contributing 0 while
its weight stays in the basis. -/
theorem C2_portfolio_confirmed_witness :
    (1 : ℚ) = ([((1 : ℚ)/2, some (2 : ℚ)), ((1 : ℚ)/2, none)].map
      (fun p => p.1 * p.2.getD 0)).sum :=
  C2_portfolio_confirmed.2 [((1 : ℚ)/2, some (2 : ℚ)), ((1 : ℚ)/2, none)] 1
    (by norm_num [recalcV2])

/-! ## Weight parsing and normalization (source: v0.1 handler lines
352-355, v0.2 handler lines 875-886). -/

/-- One input line of the v0.2 holdings textarea after splitting on the
comma: the trimmed ticker, the `safeNum` result for the weight cell
(`none` when it is NaN), and whether the cell contained a percent sign. -/
structure RawLineV2 where
  ticker : List Char
  w : Option ℚ
  pct : Bool

/-- Embedding of the v0.2 holdings-building loop: a line is kept only when
the ticker is nonempty and the (percent-adjusted) weight is strictly
positive. -/
def buildHoldingsV2 (ls : List RawLineV2) : List HoldingW :=
  ls.filterMap (fun l =>
    match l.w with
    | none => none
    | some q =>
      let w := if l.pct then q / 100 else q
      if l.ticker ≠ [] ∧ 0 < w then some ⟨l.ticker, w⟩ else none)

/-- Total raw weight of a holdings list. -/
def sumWeights (hs : List HoldingW) : ℚ := (hs.map HoldingW.weight).sum

/-- Embedding of the v0.1 normalization step: an explicit guard throws
when the raw weights do not sum to a positive number, otherwise each
weight is divided by the sum. -/
def normalizeHoldingsV1 (hs : List HoldingW) : Except String (List HoldingW) :=
  let wSum := sumWeights hs
  if ¬ (0 < wSum) then .error "Weights sum to 0."
  else .ok (hs.map (fun h => ⟨h.ticker, h.weight / wSum⟩))

/-- Embedding of the v0.2 normalization step: only emptiness is guarded
(`No holdings.`); the division by the sum itself is unguarded. -/
def normalizeHoldingsV2 (hs : List HoldingW) : Except String (List HoldingW) :=
  if hs.isEmpty then .error "No holdings."
  else
    let wSum := sumWeights hs
    .ok (hs.map (fun h => ⟨h.ticker, h.weight / wSum⟩))

theorem sumWeights_scaled (hs : List HoldingW) (c : ℚ) :
    sumWeights (hs.map (fun h => ⟨h.ticker, h.weight / c⟩))
      = sumWeights hs / c := by
  unfold sumWeights
  rw [List.map_map]
  induction hs with
  | nil => simp
  | cons h rest ih =>
    simp only [List.map_cons, List.sum_cons, ih]
    rw [add_div]
    rfl

theorem buildHoldingsV2_pos (ls : List RawLineV2) :
    ∀ h ∈ buildHoldingsV2 ls, 0 < h.weight := by
  intro h hm
  unfold buildHoldingsV2 at hm
  obtain ⟨l, _, he⟩ := List.mem_filterMap.mp hm
  rcases hw : l.w with _ | q
  · rw [hw] at he; exact absurd he (by simp)
  · rw [hw] at he
    simp only at he
    by_cases hp : l.pct = true
    · rw [if_pos hp] at he
      split at he
      · next hcond =>
        rw [Option.some.injEq] at he
        rw [← he]
        exact hcond.2
      · exact absurd he (by simp)
    · rw [if_neg hp] at he
      split at he
      · next hcond =>
        rw [Option.some.injEq] at he
        rw [← he]
        exact hcond.2
      · exact absurd he (by simp)

theorem buildHoldingsV2_sum_pos (ls : List RawLineV2)
    (h : buildHoldingsV2 ls ≠ []) : 0 < sumWeights (buildHoldingsV2 ls) := by
  unfold sumWeights
  apply List.sum_pos
  · intro x hx
    obtain ⟨hh, hm, he⟩ := List.mem_map.mp hx
    rw [← he]
    exact buildHoldingsV2_pos ls hh hm
  · simpa using h

/-- C7: a non-positive raw weight sum fails the whole request with an
explicit error before per-holding processing (directly guarded in v0.1; in
v0.2 the holdings filter keeps only positive weights, so a non-positive sum
forces the empty list, which is rejected with its own explicit error), and
otherwise each weight is divided by the sum, after which the weights sum to
exactly 1. -/
theorem C7_weights_confirmed :
    (∀ hs : List HoldingW, sumWeights hs ≤ 0 →
        normalizeHoldingsV1 hs = .error "Weights sum to 0.")
    ∧ (∀ hs : List HoldingW, 0 < sumWeights hs →
        normalizeHoldingsV1 hs
            = .ok (hs.map (fun h => ⟨h.ticker, h.weight / sumWeights hs⟩))
          ∧ sumWeights (hs.map (fun h => ⟨h.ticker, h.weight / sumWeights hs⟩))
              = 1)
    ∧ (∀ ls : List RawLineV2, ∀ h ∈ buildHoldingsV2 ls, 0 < h.weight)
    ∧ (∀ ls : List RawLineV2, sumWeights (buildHoldingsV2 ls) ≤ 0 →
        normalizeHoldingsV2 (buildHoldingsV2 ls) = .error "No holdings.")
    ∧ (∀ ls : List RawLineV2, buildHoldingsV2 ls ≠ [] →
        normalizeHoldingsV2 (buildHoldingsV2 ls)
            = .ok ((buildHoldingsV2 ls).map (fun h =>
                ⟨h.ticker, h.weight / sumWeights (buildHoldingsV2 ls)⟩))
          ∧ sumWeights ((buildHoldingsV2 ls).map (fun h =>
              ⟨h.ticker, h.weight / sumWeights (buildHoldingsV2 ls)⟩)) = 1) := by
  refine ⟨?_, ?_, buildHoldingsV2_pos, ?_, ?_⟩
  · intro hs h
    simp only [normalizeHoldingsV1]
    rw [if_pos (by rwa [not_lt])]
  · intro hs h
    constructor
    · simp only [normalizeHoldingsV1]
      rw [if_neg (fun hn => hn h)]
    · rw [sumWeights_scaled]
      exact div_self (ne_of_gt h)
  · intro ls h
    have hempty : buildHoldingsV2 ls = [] := by
      by_contra hne
      exact absurd h (not_le.mpr (buildHoldingsV2_sum_pos ls hne))
    simp only [normalizeHoldingsV2, hempty]
    rfl
  · intro ls h
    constructor
    · simp only [normalizeHoldingsV2]
      rw [if_neg (by simpa using h)]
    · rw [sumWeights_scaled]
      exact div_self (ne_of_gt (buildHoldingsV2_sum_pos ls h))

/-- C7 witness: the positive-sum part of the theorem applied at two
holdings with raw weights 1 and 3. -/
theorem C7_weights_confirmed_witness :
    normalizeHoldingsV1 [⟨['A'], 1⟩, ⟨['B'], 3⟩]
        = .ok (([⟨['A'], 1⟩, ⟨['B'], 3⟩] : List HoldingW).map (fun h =>
            (⟨h.ticker, h.weight
              / sumWeights [⟨['A'], 1⟩, ⟨['B'], 3⟩]⟩ : HoldingW)))
      ∧ sumWeights (([⟨['A'], 1⟩, ⟨['B'], 3⟩] : List HoldingW).map (fun h =>
          (⟨h.ticker, h.weight
            / sumWeights [⟨['A'], 1⟩, ⟨['B'], 3⟩]⟩ : HoldingW))) = 1 :=
  C7_weights_confirmed.2.1 [⟨['A'], 1⟩, ⟨['B'], 3⟩]
    (by norm_num [sumWeights])

/-! ## Stooq CSV parsing and price fetch (source: v0.1 `parseStooqCsv`
lines 73-94 and `fetchPrices` lines 446-455; v0.2 `fetchPricesStooq`
lines 587-600).  The transport is abstracted away: these functions take
the already-split response lines; network failures are a separate oracle
in the orchestration section. -/

/-- ASCII digit test. -/
def isDigitChar (c : Char) : Bool := 48 ≤ c.toNat ∧ c.toNat ≤ 57

/-- Value of a digit string. -/
def digitsToNat (cs : List Char) : ℕ :=
  cs.foldl (fun a c => a * 10 + (c.toNat - 48)) 0

/-- Parse an unsigned decimal literal `digits[.digits]`, entire input. -/
def parseDecCore (cs : List Char) : Option ℚ :=
  let ip := cs.takeWhile isDigitChar
  match cs.drop ip.length with
  | [] => if ip.isEmpty then none else some (digitsToNat ip : ℚ)
  | '.' :: fp =>
    if fp.all isDigitChar ∧ (ip ≠ [] ∨ fp ≠ [])
    then some ((digitsToNat ip : ℚ) + (digitsToNat fp : ℚ) / (10 : ℚ) ^ fp.length)
    else none
  | _ => none

/-- Modelled from the JS `Number(...)` coercion, restricted to the inputs
this program meets: whitespace is trimmed, the empty string is 0, an
optionally signed decimal literal parses to its value, and everything else
is NaN (`none`).  Exotic forms (exponents, hex, `Infinity`) are outside the
model. -/
def jsNum (cs : List Char) : Option ℚ :=
  let t := jsTrim cs
  if t = [] then some 0
  else match t with
    | '-' :: r => (parseDecCore r).map Neg.neg
    | '+' :: r => parseDecCore r
    | r => parseDecCore r

/-- Model of `String.prototype.split(",")`. -/
def splitComma (cs : List Char) : List (List Char) :=
  match cs with
  | [] => [[]]
  | c :: rest =>
    let r := splitComma rest
    if c = ',' then [] :: r
    else
      match r with
      | [] => [[c]]
      | h :: t => (c :: h) :: t

/-- Insert into a sorted list, modelling one step of a stable
comparator-based sort. -/
def insertRow (le : PriceRow → PriceRow → Bool) (x : PriceRow) :
    List PriceRow → List PriceRow
  | [] => [x]
  | y :: ys => if le x y then x :: y :: ys else y :: insertRow le x ys

/-- Sort of the parsed rows, modelling `rows.sort(comparator)`. -/
def sortRows (le : PriceRow → PriceRow → Bool) (l : List PriceRow) :
    List PriceRow := l.foldr (insertRow le) []

/-- The v0.1 comparator (returns 0 on equal dates: stable by date). -/
def leDateV1 (a b : PriceRow) : Bool := decide (a.date ≤ b.date)

/-- The v0.2 comparator `(a.date < b.date ? -1 : 1)`. -/
def ltDateV2 (a b : PriceRow) : Bool := decide (a.date < b.date)

theorem length_insertRow (le : PriceRow → PriceRow → Bool) (x : PriceRow) :
    ∀ l : List PriceRow, (insertRow le x l).length = l.length + 1 := by
  intro l
  induction l with
  | nil => rfl
  | cons y ys ih =>
    simp only [insertRow]
    split
    · simp
    · simp [ih]

theorem length_sortRows (le : PriceRow → PriceRow → Bool) (l : List PriceRow) :
    (sortRows le l).length = l.length := by
  unfold sortRows
  induction l with
  | nil => rfl
  | cons y ys ih =>
    simp only [List.foldr_cons, length_insertRow, ih, List.length_cons]

theorem sortRows_eq_nil_iff (le : PriceRow → PriceRow → Bool)
    (l : List PriceRow) : sortRows le l = [] ↔ l = [] := by
  constructor
  · intro h
    have := length_sortRows le l
    rw [h] at this
    exact List.length_eq_zero.mp this.symm
  · intro h; rw [h]; rfl

/-- Embedding of v0.1 `parseStooqCsv`: fewer than 3 lines or a header
without recognizable date/close columns yields no rows; data rows with a
missing or empty date cell or a NaN close cell are skipped; rows are
sorted by date. -/
def parseStooqCsv (lines : List String) : List PriceRow :=
  if lines.length < 3 then []
  else
    match lines with
    | [] => []
    | header :: body =>
      let hs := splitComma header.data
      match hs.findIdx? (fun h => jsLower h == "date".data),
            hs.findIdx? (fun h => jsLower h == "close".data) with
      | some di, some ci =>
        sortRows leDateV1 (body.filterMap (fun line =>
          let parts := splitComma line.data
          match parts.get? di with
          | none => none
          | some d =>
            if d = [] then none
            else
              match (parts.get? ci).bind jsNum with
              | none => none
              | some c => some ⟨String.mk d, c⟩))
      | _, _ => []

/-- Embedding of v0.1 `fetchPrices` after a successful transport: throw
only when no rows parsed at all. -/
def fetchPricesV1 (lines : List String) : Except String (List PriceRow) :=
  let rows := parseStooqCsv lines
  if rows.isEmpty then .error "No price data from Stooq." else .ok rows

/-- Index a cell list by the result of `findIndex`: `-1` (here `none`)
reads as JS `undefined`. -/
def cellAt (parts : List (List Char)) : Option ℕ → Option (List Char)
  | none => none
  | some i => parts.get? i

/-- Embedding of v0.2 `fetchPricesStooq`: only the line count is guarded;
there is no check that the date/close columns were found, so a malformed
header silently produces an empty row list returned as success. -/
def fetchPricesStooqV2 (lines : List String) : Except String (List PriceRow) :=
  if lines.length < 3 then .error "No data"
  else
    match lines with
    | [] => .error "No data"
    | header :: body =>
      let hs := splitComma header.data
      let di := hs.findIdx? (fun h => jsLower h == "date".data)
      let ci := hs.findIdx? (fun h => jsLower h == "close".data)
      .ok (sortRows ltDateV2 (body.filterMap (fun line =>
        let parts := splitComma line.data
        match cellAt parts di with
        | none => none
        | some d =>
          if d = [] then none
          else
            match (cellAt parts ci).bind jsNum with
            | none => none
            | some c => some ⟨String.mk d, c⟩)))

/-- C8 (amended): v0.1 fails exactly when no rows parsed at all (which
covers the empty and header-malformed responses), and v0.2 fails exactly
when the response has fewer than 3 lines; neither guards against a
successful result with fewer than 2 rows. -/
theorem C8_fetch_corrected :
    (∀ lines : List String,
        (∃ e, fetchPricesV1 lines = .error e) ↔ parseStooqCsv lines = [])
    ∧ (∀ lines : List String, lines.length < 3 → parseStooqCsv lines = [])
    ∧ (∀ lines : List String,
        (∃ e, fetchPricesStooqV2 lines = .error e) ↔ lines.length < 3) := by
  refine ⟨?_, ?_, ?_⟩
  · intro lines
    constructor
    · rintro ⟨e, he⟩
      simp only [fetchPricesV1] at he
      split at he
      · next hc => exact List.isEmpty_iff.mp hc
      · exact absurd he (by simp)
    · intro hnil
      refine ⟨"No price data from Stooq.", ?_⟩
      simp only [fetchPricesV1]
      rw [if_pos (List.isEmpty_iff.mpr hnil)]
  · intro lines h
    unfold parseStooqCsv
    rw [if_pos h]
  · intro lines
    by_cases hl : lines.length < 3
    · constructor
      · intro _; exact hl
      · intro _
        refine ⟨"No data", ?_⟩
        simp only [fetchPricesStooqV2]
        rw [if_pos hl]
    · constructor
      · rintro ⟨e, he⟩
        simp only [fetchPricesStooqV2] at he
        rw [if_neg hl] at he
        rcases lines with _ | ⟨header, body⟩
        · exact absurd (by simp : ([] : List String).length < 3) hl
        · exact absurd he (by simp)
      · intro h; exact absurd h hl

/-- C8 counterexample: a response with a valid header, one usable data row
and one junk row makes v0.1 `fetchPrices` succeed with a single-row
history, and a 3-line response with a malformed header makes v0.2
`fetchPricesStooq` succeed with an empty history; the claim says both must
fail rather than return fewer than 2 rows. -/
theorem C8_fetch_counterexample :
    fetchPricesV1
        ["Date,Open,High,Low,Close,Volume", "2024-01-02,1,1,1,100,10", "x"]
      = .ok [⟨"2024-01-02", 100⟩]
    ∧ fetchPricesStooqV2 ["a", "b", "c"] = .ok [] := by
  constructor
  · rfl
  · rfl

/-- C8 witness: the short-response part of the amended theorem applied at
a one-line response. -/
theorem C8_fetch_corrected_witness : parseStooqCsv ["a"] = [] :=
  C8_fetch_corrected.2.1 ["a"] (by norm_num)

/-- C10: both ticker-to-provider-symbol normalization functions are
idempotent: applying v0.1 `normalizeToStooqSymbol` twice equals applying
it once, and likewise for v0.2 `normalizeTicker` with every source, so an
already-normalized symbol is left unchanged. -/
theorem C10_normalization_idempotent :
    (∀ raw, normalizeToStooqSymbol (normalizeToStooqSymbol raw)
      = normalizeToStooqSymbol raw)
    ∧ (∀ raw source, normalizeTicker (normalizeTicker raw source) source
      = normalizeTicker raw source) :=
  ⟨normalizeToStooqSymbol_idem, normalizeTicker_idem⟩

end MerrillBeta
